import Mathlib

/-!
Verification of `examples/clibs/core.c`.

A shallow embedding of the two functions of `examples/clibs/core.c`:

* `raw_write`, which measures a C string with `strlen` and hands it to the
  kernel through a hand-written x86-64 `syscall` sequence, and
* `print_number`, which prints an `int` through `printf` and returns 0.

The C library (`strlen`, `printf`) and the kernel are the environment of the
program.  They are modelled by what the C standard and the comments of the
source say about them; the kernel is Linux on x86-64, whose calling convention
the assembly block uses (`syscall`, number 1 for `write`).  What the
environment decides (how many bytes the kernel takes, whether `printf` reports
an output error) is an explicit argument.
-/

namespace Core

/-! ## Data model -/

/-- One system-call request, as the registers stand when `syscall` executes. -/
structure SysReq where
  /-- Register rax: the system-call number. -/
  nr : Nat
  /-- Register rdi: the first argument, the file descriptor. -/
  fd : Nat
  /-- Register rsi: the second argument, the address of the buffer. -/
  buf : Nat
  /-- Register rdx: the third argument, the byte count. -/
  count : Nat
deriving DecidableEq, Repr

/-- The four 64-bit registers the assembly block names. -/
structure Regs where
  rax : Nat
  rdi : Nat
  rsi : Nat
  rdx : Nat
deriving DecidableEq, Repr

/-- The state the two functions act on.  `mem` is the readable user memory,
one byte per cell, addressed from 0; `fd1` is what the kernel has accepted on
file descriptor 1; `stream` is what has been transmitted to the buffered
stream `stdout` of the C library; `calls` is the log of system calls made by
the assembly block. -/
structure World where
  mem : List Nat
  fd1 : List Nat
  stream : List Char
  calls : List SysReq
deriving DecidableEq, Repr

/-! ## Machine arithmetic -/

/-- Two's-complement encoding of a signed value in a 64-bit register. -/
def toReg64 (r : Int) : Nat := (r % 2 ^ 64).toNat

/-- The low half `eax` of the 64-bit register `rax`. -/
def eax (rax : Nat) : Nat := rax % 2 ^ 32

/-- A 32-bit pattern read as a C `int`. -/
def toInt32 (bits : Nat) : Int :=
  if bits % 2 ^ 32 < 2 ^ 31 then ((bits % 2 ^ 32 : Nat) : Int)
  else ((bits % 2 ^ 32 : Nat) : Int) - 2 ^ 32

/-! ## `strlen` -/

/-- The scan of `strlen` over the bytes from the pointer onwards: the number
of bytes before the first zero byte.  `none` when the readable bytes end
before a zero byte is met (the call is then undefined). -/
def strlenFrom : List Nat → Option Nat
  | [] => none
  | b :: bs => if b = 0 then some 0 else (strlenFrom bs).map (· + 1)

/-- The call `strlen(s)` in memory `mem`. -/
def strlen (mem : List Nat) (s : Nat) : Option Nat :=
  strlenFrom (mem.drop s)

/-! ## The kernel side of `syscall` -/

/-- What the instruction `syscall` does.  The request in the registers is
logged.  `r` is the signed result the kernel chooses for the request; it
comes back in `rax`.  For `sys_write` (number 1) on file descriptor 1 with a
non-negative result `r`, the first `r` bytes of the requested range
`mem[rsi .. rsi+rdx)` are appended to the descriptor's output. -/
def syscall (regs : Regs) (r : Int) (w : World) : Regs × World :=
  let req : SysReq := ⟨regs.rax, regs.rdi, regs.rsi, regs.rdx⟩
  let out : List Nat :=
    if regs.rax = 1 ∧ regs.rdi = 1 ∧ 0 ≤ r then
      (((w.mem.drop regs.rsi).take regs.rdx).take r.toNat)
    else []
  ({ regs with rax := toReg64 r },
   { w with fd1 := w.fd1 ++ out, calls := w.calls ++ [req] })

/-- The most bytes the kernel transfers in one `write` call, whatever the
count requested: 0x7ffff000. -/
def MAX_RW_COUNT : Nat := 0x7ffff000

/-- The results a write request for `count` bytes can have: a negated error
number (1 to 4095), or the number of bytes transferred, which is at most
`count` and at most `MAX_RW_COUNT`. -/
def WriteResult (count : Nat) (r : Int) : Prop :=
  -4095 ≤ r ∧ r ≤ (count : Int) ∧ r ≤ (MAX_RW_COUNT : Int)

instance (count : Nat) (r : Int) : Decidable (WriteResult count r) := by
  unfold WriteResult; infer_instance

/-! ## `raw_write` -/

/-- The assembly block of `raw_write`, for pointer `s` and length `len`:
four `mov`s into rax, rdi, rsi, rdx, then `syscall`, then `mov %eax` into the
`int` variable `result`.  The pointer and the `size_t` length are 64-bit
values moved into 64-bit registers, so these moves keep them as they are; the
one move that narrows is the last, from the 32-bit `eax`. -/
def raw_write_asm (s len : Nat) (r : Int) (w : World) : Int × World :=
  let regs : Regs := ⟨0, 0, 0, 0⟩
  let regs := { regs with rax := 1 }
  let regs := { regs with rdi := 1 }
  let regs := { regs with rsi := s }
  let regs := { regs with rdx := len }
  let (regs, w) := syscall regs r w
  let result : Int := toInt32 (eax regs.rax)
  (result, w)

/-- The function `int raw_write(const char *s)`.  `r` is the kernel's result for the write
request.  `none` when `s` is not a terminated string in readable memory. -/
def raw_write (s : Nat) (r : Int) (w : World) : Option (Int × World) :=
  match strlen w.mem s with
  | none => none
  | some len => some (raw_write_asm s len r w)

/-- Memory `mem` holds at address `s` the bytes `bytes` followed by the
terminator, and no byte of `bytes` is the terminator. -/
def CString (mem : List Nat) (s : Nat) (bytes : List Nat) : Prop :=
  (∀ b ∈ bytes, b ≠ 0) ∧ (mem.drop s).take (bytes.length + 1) = bytes ++ [0]

instance (mem : List Nat) (s : Nat) (bytes : List Nat) : Decidable (CString mem s bytes) := by
  unfold CString; infer_instance

/-- Printable ASCII byte. -/
def printable (b : Nat) : Prop := 32 ≤ b ∧ b ≤ 126

instance (b : Nat) : Decidable (printable b) := by
  unfold printable; infer_instance

/-- The bytes of a string literal. -/
def bytesOf (str : String) : List Nat := str.toList.map Char.toNat

/-- A world whose memory is just the string literal and its terminator. -/
def worldOf (str : String) : World := ⟨bytesOf str ++ [0], [], [], []⟩

/-! ## `printf` and `print_number` -/

/-- The `int` object at address `p`: four bytes, least significant first, read
as a two's-complement value.  `none` when the four bytes are not all readable. -/
def load_int (mem : List Nat) (p : Nat) : Option Int :=
  match mem.drop p with
  | b0 :: b1 :: b2 :: b3 :: _ =>
      some (toInt32 (b0 % 256 + 256 * (b1 % 256) + 65536 * (b2 % 256) + 16777216 * (b3 % 256)))
  | _ => none

/-- The four bytes that hold the `int` value `v`, least significant first. -/
def int_bytes (v : Int) : List Nat :=
  let u : Nat := (v % 2 ^ 32).toNat
  [u % 256, u / 256 % 256, u / 65536 % 256, u / 16777216 % 256]

/-- The digit loop of an integer conversion: the digits of `n` are produced
from the least significant one and placed in front of what is already there;
the loop stops when the quotient reaches 0. -/
def utoa : Nat → Nat → List Char → List Char
  | 0, _, acc => acc
  | fuel + 1, n, acc =>
      let acc1 := Nat.digitChar (n % 10) :: acc
      if n / 10 = 0 then acc1 else utoa fuel (n / 10) acc1

/-- The conversion `%d` of `printf`: a minus sign for a negative value, then
the digits of the magnitude. -/
def fmt_d (v : Int) : List Char :=
  if v < 0 then '-' :: utoa (v.natAbs + 1) v.natAbs []
  else utoa (v.natAbs + 1) v.natAbs []

/-- The text `printf` builds from a format and its `int` arguments: `%d`
converts the next argument, `%%` is a percent sign, any other character is
copied.  `none` for a directive outside these or a missing argument. -/
def format : List Char → List Int → Option (List Char)
  | [], _ => some []
  | '%' :: 'd' :: rest, a :: args => (format rest args).map (fmt_d a ++ ·)
  | '%' :: '%' :: rest, args => (format rest args).map ('%' :: ·)
  | '%' :: _, _ => none
  | c :: rest, args => (format rest args).map (c :: ·)

/-- What happens to the text of one `printf` call: it is transmitted whole, or
an output error occurs after `sent` characters and the call reports the
negative value `status`. -/
inductive Outcome where
  | ok
  | err (status : Int) (sent : Nat)
deriving DecidableEq, Repr

/-- The call `printf(fmt, args...)`: returns the number of characters transmitted, or
the error status. -/
def printf (fmt : List Char) (args : List Int) (o : Outcome) (w : World) :
    Option (Int × World) :=
  match format fmt args with
  | none => none
  | some text =>
    match o with
    | Outcome.ok => some ((text.length : Int), { w with stream := w.stream ++ text })
    | Outcome.err status sent => some (status, { w with stream := w.stream ++ text.take sent })

/-- The function `int print_number(int *num)`.  `none` when `num` does not point to a
readable `int`. -/
def print_number (num : Nat) (o : Outcome) (w : World) : Option (Int × World) :=
  match load_int w.mem num with
  | none => none
  | some v =>
    match printf "Number -> %d\n".toList [v] o w with
    | none => none
    | some (_, w1) => some (0, w1)

/-! ## The decimal representation, as the specification words it -/

/-- Value of a string of decimal digits. -/
def decValue (ds : List Char) : Nat :=
  ds.foldl (fun a c => a * 10 + (c.toNat - 48)) 0

/-- A non-empty string of decimal digits without a superfluous leading zero. -/
def Canonical (ds : List Char) : Prop :=
  ds ≠ [] ∧ (∀ c ∈ ds, '0' ≤ c ∧ c ≤ '9') ∧ (ds.head? = some '0' → ds = ['0'])

/-- The text `cs` is the decimal representation of `n`: a leading minus sign
exactly for a negative `n`, no plus sign, then the digits of the magnitude
without leading zeros. -/
def DecimalOf (n : Int) (cs : List Char) : Prop :=
  (0 ≤ n ∧ Canonical cs ∧ (decValue cs : Int) = n) ∨
  (n < 0 ∧ ∃ ds, cs = '-' :: ds ∧ Canonical ds ∧ (decValue ds : Int) = -n)

/-- A world whose memory is just the `int` value `v`. -/
def worldOfInt (v : Int) : World := ⟨int_bytes v, [], [], []⟩

/-! ## Lemmas on the machine arithmetic -/

theorem eax_toReg64 (r : Int) : ((eax (toReg64 r) : Nat) : Int) = r % 2 ^ 32 := by
  unfold eax toReg64
  omega

theorem toInt32_eax_toReg64 (r : Int) :
    toInt32 (eax (toReg64 r)) =
      if r % 2 ^ 32 < 2 ^ 31 then r % 2 ^ 32 else r % 2 ^ 32 - 2 ^ 32 := by
  unfold toInt32 eax toReg64
  split <;> split <;> omega

theorem toInt32_fits (r : Int) (lo : -2 ^ 31 ≤ r) (hi : r < 2 ^ 31) :
    toInt32 (eax (toReg64 r)) = r := by
  rw [toInt32_eax_toReg64]
  split <;> omega

theorem toInt32_range (r : Int) :
    -2 ^ 31 ≤ toInt32 (eax (toReg64 r)) ∧ toInt32 (eax (toReg64 r)) < 2 ^ 31 := by
  rw [toInt32_eax_toReg64]
  split <;> omega

/-! ## Lemmas on `strlen` -/

theorem strlenFrom_append (bytes rest : List Nat) (h : ∀ b ∈ bytes, b ≠ 0) :
    strlenFrom (bytes ++ 0 :: rest) = some bytes.length := by
  induction bytes with
  | nil => simp [strlenFrom]
  | cons b bs ih =>
    have hb : b ≠ 0 := h b (List.mem_cons_self b bs)
    have hbs : ∀ x ∈ bs, x ≠ 0 := fun x hx => h x (List.mem_cons_of_mem b hx)
    simp [strlenFrom, hb, ih hbs]

theorem cstring_split {mem : List Nat} {s : Nat} {bytes : List Nat}
    (hs : CString mem s bytes) :
    ∃ rest, mem.drop s = bytes ++ 0 :: rest := by
  refine ⟨(mem.drop s).drop (bytes.length + 1), ?_⟩
  have h := List.take_append_drop (bytes.length + 1) (mem.drop s)
  rw [hs.2] at h
  rw [← h]
  simp

theorem strlen_cstring {mem : List Nat} {s : Nat} {bytes : List Nat}
    (hs : CString mem s bytes) : strlen mem s = some bytes.length := by
  obtain ⟨rest, hrest⟩ := cstring_split hs
  unfold strlen
  rw [hrest]
  exact strlenFrom_append bytes rest hs.1

theorem take_cstring {mem : List Nat} {s : Nat} {bytes : List Nat}
    (hs : CString mem s bytes) : (mem.drop s).take bytes.length = bytes := by
  obtain ⟨rest, hrest⟩ := cstring_split hs
  rw [hrest]
  simp

/-- The scan stops at the first zero byte: if it returns `n`, the `n` bytes
before are non-zero and the byte at `n` is zero. -/
theorem strlenFrom_some (buf : List Nat) (n : Nat) (h : strlenFrom buf = some n) :
    (∀ b ∈ buf.take n, b ≠ 0) ∧ buf.drop n ≠ [] ∧ (buf.drop n).head? = some 0 := by
  induction buf generalizing n with
  | nil => simp [strlenFrom] at h
  | cons b bs ih =>
    by_cases hb : b = 0
    · simp [strlenFrom, hb] at h
      subst h
      simp [hb]
    · simp [strlenFrom, hb] at h
      obtain ⟨m, hm, rfl⟩ := h
      obtain ⟨h1, h2, h3⟩ := ih m hm
      refine ⟨?_, ?_, ?_⟩
      · intro x hx
        simp at hx
        rcases hx with rfl | hx
        · exact hb
        · exact h1 x hx
      · simpa using h2
      · simpa using h3

/-- The scan terminates on every buffer that holds a zero byte. -/
theorem strlenFrom_of_mem (buf : List Nat) (h : 0 ∈ buf) :
    ∃ n, strlenFrom buf = some n ∧ n < buf.length := by
  induction buf with
  | nil => simp at h
  | cons b bs ih =>
    by_cases hb : b = 0
    · exact ⟨0, by simp [strlenFrom, hb], by simp⟩
    · have hmem : 0 ∈ bs := by
        rcases List.mem_cons.mp h with h0 | h0
        · exact absurd h0.symm hb
        · exact h0
      obtain ⟨m, hm, hlt⟩ := ih hmem
      exact ⟨m + 1, by simp [strlenFrom, hb, hm], by simpa using hlt⟩

/-! ## What `raw_write` computes -/

/-- The whole effect of `raw_write` on a terminated string, for any result `r`
of the kernel. -/
theorem raw_write_eq {w : World} {s : Nat} {bytes : List Nat}
    (hs : CString w.mem s bytes) (r : Int) :
    raw_write s r w =
      some (toInt32 (eax (toReg64 r)),
        { w with
          fd1 := w.fd1 ++ (if 0 ≤ r then bytes.take r.toNat else []),
          calls := w.calls ++ [⟨1, 1, s, bytes.length⟩] }) := by
  unfold raw_write
  rw [strlen_cstring hs]
  simp only [raw_write_asm, syscall, take_cstring hs]
  by_cases hr : 0 ≤ r <;> simp [hr]

/-- Every result of a write request fits a signed 32-bit integer. -/
theorem writeResult_fits {count : Nat} {r : Int} (hr : WriteResult count r) :
    -2 ^ 31 ≤ r ∧ r < 2 ^ 31 := by
  obtain ⟨lo, _, hi⟩ := hr
  unfold MAX_RW_COUNT at hi
  push_cast at hi
  omega

/-! ## The concrete scenarios of the specification -/

theorem scenario_hello :
    raw_write 0 5 (worldOf "hello") =
      some (5, ⟨bytesOf "hello" ++ [0], bytesOf "hello", [], [⟨1, 1, 0, 5⟩]⟩) := by
  decide

theorem scenario_empty :
    raw_write 0 0 (worldOf "") = some (0, ⟨[0], [], [], [⟨1, 1, 0, 0⟩]⟩) := by
  decide

theorem scenario_42 :
    print_number 0 Outcome.ok (worldOfInt 42) =
      some (0, ⟨int_bytes 42, [], "Number -> 42\n".toList, []⟩) := by
  decide

theorem scenario_minus_7 :
    print_number 0 Outcome.ok (worldOfInt (-7)) =
      some (0, ⟨int_bytes (-7), [], "Number -> -7\n".toList, []⟩) := by
  decide

theorem scenario_int_max :
    print_number 0 Outcome.ok (worldOfInt 2147483647) =
      some (0, ⟨int_bytes 2147483647, [], "Number -> 2147483647\n".toList, []⟩) := by
  decide

theorem scenario_int_min :
    print_number 0 Outcome.ok (worldOfInt (-2147483648)) =
      some (0, ⟨int_bytes (-2147483648), [], "Number -> -2147483648\n".toList, []⟩) := by
  decide

theorem scenario_zero :
    print_number 0 Outcome.ok (worldOfInt 0) =
      some (0, ⟨int_bytes 0, [], "Number -> 0\n".toList, []⟩) := by
  decide

/-! ## Claims on `raw_write` -/

/-- C1 (as amended): for every non-empty sequence `bytes` of printable bytes
without embedded terminator, when the write request transfers the whole
sequence (its result `r` is the length of the sequence), `raw_write` returns
the length of the sequence and exactly the bytes of the sequence, in order,
are added to standard output. -/
theorem raw_write_whole_string (w : World) (s : Nat) (bytes : List Nat) (r : Int)
    (hs : CString w.mem s bytes) (_hne : bytes ≠ []) (_hp : ∀ b ∈ bytes, printable b)
    (hr : WriteResult bytes.length r) (hfull : r = (bytes.length : Int)) :
    ∃ w1, raw_write s r w = some ((bytes.length : Int), w1) ∧
      w1.fd1 = w.fd1 ++ bytes := by
  have hfit := writeResult_fits hr
  rw [raw_write_eq hs, toInt32_fits r hfit.1 hfit.2]
  subst hfull
  exact ⟨_, rfl, by simp⟩

/-- Witness for C1: the string "hello" written whole returns 5 and puts
h, e, l, l, o on standard output. -/
theorem raw_write_whole_string_witness :
    ∃ w1, raw_write 0 5 (worldOf "hello") = some (((bytesOf "hello").length : Int), w1) ∧
      w1.fd1 = (worldOf "hello").fd1 ++ bytesOf "hello" :=
  raw_write_whole_string (worldOf "hello") 0 (bytesOf "hello") 5
    (by decide) (by decide) (by decide) (by decide) (by decide)

/-- C1 as stated fails: a write request that does not fail may be short.  Of
"hello" the kernel takes 2 bytes: the request has not failed, `raw_write`
returns 2, not 5, and standard output receives h, e only. -/
theorem raw_write_whole_string_counterexample :
    CString (worldOf "hello").mem 0 (bytesOf "hello") ∧ bytesOf "hello" ≠ [] ∧
      (∀ b ∈ bytesOf "hello", printable b) ∧ WriteResult 5 2 ∧ (0 : Int) ≤ 2 ∧
      raw_write 0 2 (worldOf "hello") =
        some (2, ⟨bytesOf "hello" ++ [0], bytesOf "he", [], [⟨1, 1, 0, 5⟩]⟩) ∧
      (2 : Int) ≠ ((bytesOf "hello").length : Int) ∧ bytesOf "he" ≠ bytesOf "hello" := by
  decide

/-- C3 (as amended): for the empty string, `raw_write` adds no byte to
standard output whatever the result of the write request; it returns 0 when
the request does not fail, and the negative error indicator when it fails. -/
theorem raw_write_empty (w : World) (s : Nat) (r : Int)
    (hs : CString w.mem s []) (hr : WriteResult 0 r) :
    ∃ ret w1, raw_write s r w = some (ret, w1) ∧ w1.fd1 = w.fd1 ∧
      (0 ≤ r → ret = 0) ∧ (r < 0 → ret = r) := by
  have hfit := writeResult_fits hr
  obtain ⟨_, hi, _⟩ := hr
  rw [raw_write_eq hs, toInt32_fits r hfit.1 hfit.2]
  refine ⟨_, _, rfl, ?_, ?_, ?_⟩
  · by_cases h0 : 0 ≤ r <;> simp [h0]
  · intro h0
    push_cast at hi
    omega
  · intro _
    rfl

/-- Witness for C3: the empty string, with a request that does not fail. -/
theorem raw_write_empty_witness :
    ∃ ret w1, raw_write 0 0 (worldOf "") = some (ret, w1) ∧ w1.fd1 = (worldOf "").fd1 ∧
      ((0 : Int) ≤ 0 → ret = 0) ∧ ((0 : Int) < 0 → ret = 0) :=
  raw_write_empty (worldOf "") 0 0 (by decide) (by decide)

/-- C3 as stated fails: when the write request for the empty string fails
(here with error number 9), `raw_write` returns -9, not 0. -/
theorem raw_write_empty_counterexample :
    CString (worldOf "").mem 0 [] ∧ WriteResult 0 (-9) ∧
      raw_write 0 (-9) (worldOf "") = some (-9, ⟨[0], [], [], [⟨1, 1, 0, 0⟩]⟩) ∧
      (-9 : Int) ≠ 0 := by
  decide

/-- C4: for every terminated string and every result `r` of the write
request, `raw_write` returns exactly `r`: the number of bytes written when the
request succeeds (and then just these bytes have reached standard output), the
negative error indicator when it fails (and then nothing has). -/
theorem raw_write_returns_result (w : World) (s : Nat) (bytes : List Nat) (r : Int)
    (hs : CString w.mem s bytes) (hr : WriteResult bytes.length r) :
    ∃ w1, raw_write s r w = some (r, w1) ∧
      (0 ≤ r → w1.fd1 = w.fd1 ++ bytes.take r.toNat) ∧
      (r < 0 → w1.fd1 = w.fd1) := by
  have hfit := writeResult_fits hr
  rw [raw_write_eq hs, toInt32_fits r hfit.1 hfit.2]
  refine ⟨_, rfl, ?_, ?_⟩
  · intro h0
    simp [h0]
  · intro h0
    have : ¬ 0 ≤ r := by omega
    simp [this]

/-- Witness for C4: a failing request (error number 9) on "hello". -/
theorem raw_write_returns_result_witness :
    ∃ w1, raw_write 0 (-9) (worldOf "hello") = some (-9, w1) ∧
      ((0 : Int) ≤ -9 → w1.fd1 = (worldOf "hello").fd1 ++ (bytesOf "hello").take (-9 : Int).toNat) ∧
      ((-9 : Int) < 0 → w1.fd1 = (worldOf "hello").fd1) :=
  raw_write_returns_result (worldOf "hello") 0 (bytesOf "hello") (-9)
    (by decide) (by decide)

/-- C5: for every terminated string and every result of the write request,
`raw_write` issues exactly one request: system call number 1, file descriptor
1, buffer `s`, byte count the length computed by `strlen`.  The log of
requests grows by this one entry and by nothing else. -/
theorem raw_write_single_request (w : World) (s : Nat) (bytes : List Nat) (r : Int)
    (hs : CString w.mem s bytes) :
    ∃ len ret w1, strlen w.mem s = some len ∧ raw_write s r w = some (ret, w1) ∧
      w1.calls = w.calls ++ [⟨1, 1, s, len⟩] := by
  refine ⟨bytes.length, _, _, strlen_cstring hs, raw_write_eq hs r, rfl⟩

/-- Witness for C5: "hello" with a short write of 3 bytes. -/
theorem raw_write_single_request_witness :
    ∃ len ret w1, strlen (worldOf "hello").mem 0 = some len ∧
      raw_write 0 3 (worldOf "hello") = some (ret, w1) ∧
      w1.calls = (worldOf "hello").calls ++ [⟨1, 1, 0, len⟩] :=
  raw_write_single_request (worldOf "hello") 0 (bytesOf "hello") 3 (by decide)

/-- C7: for every terminated string of length `n` and every `k < n`, if the
write request transfers only `k` bytes, then `raw_write` returns `k`, exactly
the first `k` bytes of the string are added to standard output, and no
further request is made for the remaining `n - k` bytes. -/
theorem raw_write_short_count (w : World) (s : Nat) (bytes : List Nat) (k : Nat)
    (hs : CString w.mem s bytes) (_hk : k < bytes.length)
    (hr : WriteResult bytes.length (k : Int)) :
    ∃ w1, raw_write s (k : Int) w = some ((k : Int), w1) ∧
      w1.fd1 = w.fd1 ++ bytes.take k ∧
      w1.calls = w.calls ++ [⟨1, 1, s, bytes.length⟩] := by
  have hfit := writeResult_fits hr
  rw [raw_write_eq hs, toInt32_fits _ hfit.1 hfit.2]
  exact ⟨_, rfl, by simp, rfl⟩

/-- Witness for C7: "hello" of which the kernel takes 2 bytes. -/
theorem raw_write_short_count_witness :
    ∃ w1, raw_write 0 ((2 : Nat) : Int) (worldOf "hello") = some (((2 : Nat) : Int), w1) ∧
      w1.fd1 = (worldOf "hello").fd1 ++ (bytesOf "hello").take 2 ∧
      w1.calls = (worldOf "hello").calls ++ [⟨1, 1, 0, (bytesOf "hello").length⟩] :=
  raw_write_short_count (worldOf "hello") 0 (bytesOf "hello") 2
    (by decide) (by decide) (by decide)

theorem strlenFrom_eq_indexOf (buf : List Nat) (n : Nat) (h : strlenFrom buf = some n) :
    n = buf.indexOf 0 := by
  induction buf generalizing n with
  | nil => simp [strlenFrom] at h
  | cons b bs ih =>
    by_cases hb : b = 0
    · simp [strlenFrom, hb] at h
      subst h
      simp [hb]
    · simp [strlenFrom, hb] at h
      obtain ⟨m, hm, rfl⟩ := h
      rw [List.indexOf_cons_ne bs hb, ← ih m hm]

/-- C8: for every memory in which a zero byte follows the pointer, the length
scan terminates, and the byte count of the one request `raw_write` makes is
the index of the first zero byte: every byte of the requested range is
non-zero, and the byte just after the range is the terminator. -/
theorem raw_write_count_first_zero (w : World) (s : Nat) (r : Int)
    (h0 : 0 ∈ w.mem.drop s) :
    ∃ n ret w1, strlen w.mem s = some n ∧ raw_write s r w = some (ret, w1) ∧
      w1.calls = w.calls ++ [⟨1, 1, s, n⟩] ∧
      n = (w.mem.drop s).indexOf 0 ∧
      n < (w.mem.drop s).length ∧
      (∀ b ∈ (w.mem.drop s).take n, b ≠ 0) ∧
      ((w.mem.drop s).drop n).head? = some 0 := by
  obtain ⟨n, hn, hlt⟩ := strlenFrom_of_mem _ h0
  obtain ⟨h1, _, h3⟩ := strlenFrom_some _ n hn
  have hlen : strlen w.mem s = some n := hn
  have hrw : raw_write s r w =
      some ((raw_write_asm s n r w).1, (raw_write_asm s n r w).2) := by
    unfold raw_write
    rw [hlen]
  exact ⟨n, _, _, hlen, hrw, rfl, strlenFrom_eq_indexOf _ n hn, hlt, h1, h3⟩

/-- Witness for C8: a buffer with an embedded terminator, "ab", 0, "cd", 0. -/
theorem raw_write_count_first_zero_witness :
    ∃ n ret w1, strlen (⟨[97, 98, 0, 99, 100, 0], [], [], []⟩ : World).mem 0 = some n ∧
      raw_write 0 2 ⟨[97, 98, 0, 99, 100, 0], [], [], []⟩ = some (ret, w1) ∧
      w1.calls = (⟨[97, 98, 0, 99, 100, 0], [], [], []⟩ : World).calls ++ [⟨1, 1, 0, n⟩] ∧
      n = (List.drop 0 (⟨[97, 98, 0, 99, 100, 0], [], [], []⟩ : World).mem).indexOf 0 ∧
      n < (List.drop 0 (⟨[97, 98, 0, 99, 100, 0], [], [], []⟩ : World).mem).length ∧
      (∀ b ∈ (List.drop 0 (⟨[97, 98, 0, 99, 100, 0], [], [], []⟩ : World).mem).take n, b ≠ 0) ∧
      ((List.drop 0 (⟨[97, 98, 0, 99, 100, 0], [], [], []⟩ : World).mem).drop n).head? = some 0 :=
  raw_write_count_first_zero ⟨[97, 98, 0, 99, 100, 0], [], [], []⟩ 0 2 (by decide)

/-- C10: the value `raw_write` returns is the low 32 bits of the result `r` of
the system call read as a signed 32-bit integer, while the byte count of the
request is the full length.  It equals `r` exactly when `r` fits a signed
32-bit integer; a result of 2^31 or more needs a string of 2^31 bytes or
more, is returned changed, and is returned negative when below 2^32. -/
theorem raw_write_low32 (w : World) (s : Nat) (bytes : List Nat) (r : Int)
    (hs : CString w.mem s bytes) :
    ∃ ret w1, raw_write s r w = some (ret, w1) ∧
      ret = toInt32 (r % 2 ^ 32).toNat ∧
      w1.calls = w.calls ++ [⟨1, 1, s, bytes.length⟩] ∧
      (ret = r ↔ -2 ^ 31 ≤ r ∧ r < 2 ^ 31) ∧
      (2 ^ 31 ≤ r → ret ≠ r) ∧
      (2 ^ 31 ≤ r → r ≤ (bytes.length : Int) → 2 ^ 31 ≤ bytes.length) ∧
      (2 ^ 31 ≤ r → r < 2 ^ 32 → ret < 0) := by
  refine ⟨_, _, raw_write_eq hs r, ?_, rfl, ?_, ?_, ?_, ?_⟩
  · rw [toInt32_eax_toReg64]
    unfold toInt32
    split <;> split <;> omega
  · have hrange := toInt32_range r
    constructor
    · intro h
      rw [h] at hrange
      exact hrange
    · rintro ⟨lo, hi⟩
      exact toInt32_fits r lo hi
  · intro h heq
    have hrange := toInt32_range r
    rw [heq] at hrange
    omega
  · intro h hr
    omega
  · intro h1 h2
    rw [toInt32_eax_toReg64]
    split <;> omega

/-- Witness for C10: "hello" written whole. -/
theorem raw_write_low32_witness :
    ∃ ret w1, raw_write 0 5 (worldOf "hello") = some (ret, w1) ∧
      ret = toInt32 ((5 : Int) % 2 ^ 32).toNat ∧
      w1.calls = (worldOf "hello").calls ++ [⟨1, 1, 0, (bytesOf "hello").length⟩] ∧
      (ret = 5 ↔ -2 ^ 31 ≤ (5 : Int) ∧ (5 : Int) < 2 ^ 31) ∧
      (2 ^ 31 ≤ (5 : Int) → ret ≠ 5) ∧
      (2 ^ 31 ≤ (5 : Int) → (5 : Int) ≤ ((bytesOf "hello").length : Int) →
        2 ^ 31 ≤ (bytesOf "hello").length) ∧
      (2 ^ 31 ≤ (5 : Int) → (5 : Int) < 2 ^ 32 → ret < 0) :=
  raw_write_low32 (worldOf "hello") 0 (bytesOf "hello") 5 (by decide)

/-! ## Lemmas on `printf` -/

theorem toInt32_bounds (bits : Nat) : -2 ^ 31 ≤ toInt32 bits ∧ toInt32 bits < 2 ^ 31 := by
  unfold toInt32
  split <;> omega

theorem load_int_bounds {mem : List Nat} {p : Nat} {n : Int}
    (h : load_int mem p = some n) : -2 ^ 31 ≤ n ∧ n < 2 ^ 31 := by
  unfold load_int at h
  split at h
  · simp only [Option.some.injEq] at h
    rw [← h]
    exact toInt32_bounds _
  · simp at h

/-- Every `int` value has a memory image that `load_int` reads back. -/
theorem load_int_int_bytes (n : Int) (lo : -2 ^ 31 ≤ n) (hi : n < 2 ^ 31) :
    load_int (int_bytes n) 0 = some n := by
  simp only [load_int, int_bytes, List.drop_zero, Option.some.injEq]
  unfold toInt32
  split <;> omega

theorem digitChar_digit (d : Nat) (h : d < 10) :
    ('0' ≤ Nat.digitChar d ∧ Nat.digitChar d ≤ '9') ∧
      (Nat.digitChar d).toNat - 48 = d ∧ (Nat.digitChar d = '0' → d = 0) := by
  interval_cases d <;> decide

theorem decValue_snoc (ds : List Char) (c : Char) :
    decValue (ds ++ [c]) = decValue ds * 10 + (c.toNat - 48) := by
  simp [decValue, List.foldl_append]

/-- The digit loop, given enough fuel, puts in front of `acc` the digits of
`n`: at least one, all of them decimal digits, of value `n`, and with a
leading zero only for `n = 0`. -/
theorem utoa_spec (fuel n : Nat) (acc : List Char) (h : n < fuel) :
    ∃ ds, utoa fuel n acc = ds ++ acc ∧ ds ≠ [] ∧ (∀ c ∈ ds, '0' ≤ c ∧ c ≤ '9') ∧
      decValue ds = n ∧ (ds.head? = some '0' → ds = ['0']) := by
  induction fuel generalizing n acc with
  | zero => exact absurd h (Nat.not_lt_zero n)
  | succ f ih =>
    have hd := digitChar_digit (n % 10) (Nat.mod_lt n (by decide))
    by_cases hq : n / 10 = 0
    · refine ⟨[Nat.digitChar (n % 10)], by simp [utoa, hq], by simp, ?_, ?_, ?_⟩
      · intro c hc
        rw [List.mem_singleton] at hc
        rw [hc]
        exact hd.1
      · have : decValue [Nat.digitChar (n % 10)] = (Nat.digitChar (n % 10)).toNat - 48 := by
          simp [decValue]
        rw [this, hd.2.1]
        omega
      · intro _
        have h0 : Nat.digitChar (n % 10) = '0' := by simp_all
        rw [h0]
    · obtain ⟨ds, hds, hne, hdig, hval, hhead⟩ :=
        ih (n / 10) (Nat.digitChar (n % 10) :: acc) (by omega)
      refine ⟨ds ++ [Nat.digitChar (n % 10)], ?_, by simp, ?_, ?_, ?_⟩
      · simp [utoa, hq, hds]
      · intro c hc
        rcases List.mem_append.mp hc with hc | hc
        · exact hdig c hc
        · rw [List.mem_singleton] at hc
          rw [hc]
          exact hd.1
      · rw [decValue_snoc, hval, hd.2.1]
        omega
      · intro hh
        exfalso
        have hh2 : ds.head? = some '0' := by
          cases ds with
          | nil => exact absurd rfl hne
          | cons c cs => simpa using hh
        have hz := hhead hh2
        rw [hz] at hval
        have : decValue ['0'] = 0 := by decide
        omega

/-- The conversion `%d` yields the decimal representation of its argument. -/
theorem fmt_d_decimal (n : Int) : DecimalOf n (fmt_d n) := by
  obtain ⟨ds, hds, hne, hdig, hval, hhead⟩ :=
    utoa_spec (n.natAbs + 1) n.natAbs [] (Nat.lt_succ_self _)
  rw [List.append_nil] at hds
  unfold DecimalOf fmt_d
  by_cases hneg : n < 0
  · right
    refine ⟨hneg, ds, by simp [hneg, hds], ⟨hne, hdig, hhead⟩, ?_⟩
    rw [hval]
    omega
  · left
    refine ⟨by omega, ?_, ?_⟩
    · simp only [hneg, if_false, hds]
      exact ⟨hne, hdig, hhead⟩
    · simp only [hneg, if_false, hds, hval]
      omega

theorem format_number (v : Int) :
    format "Number -> %d\n".toList [v] = some ("Number -> ".toList ++ fmt_d v ++ ['\n']) := by
  rfl

/-- The whole effect of `print_number` on a readable `int`. -/
theorem print_number_eq {w : World} {num : Nat} {n : Int}
    (hn : load_int w.mem num = some n) (o : Outcome) :
    print_number num o w =
      some (0, { w with
        stream := w.stream ++
          (match o with
           | Outcome.ok => "Number -> ".toList ++ fmt_d n ++ ['\n']
           | Outcome.err _ sent => ("Number -> ".toList ++ fmt_d n ++ ['\n']).take sent) }) := by
  unfold print_number printf
  rw [hn]
  simp only [format_number]
  cases o <;> rfl

/-! ## Claims on `print_number` -/

/-- C2 (as amended): for every signed 32-bit integer `n`, when the formatted
output call succeeds, `print_number` called on a reference to `n` adds to the
stream exactly the text "Number -> ", then the decimal representation of `n`
(a leading minus sign for a negative value, no leading zeros, no plus sign),
then one newline, and returns 0. -/
theorem print_number_line (w : World) (num : Nat) (n : Int)
    (hn : load_int w.mem num = some n) :
    (-2 ^ 31 ≤ n ∧ n < 2 ^ 31) ∧
    ∃ text w1, DecimalOf n text ∧
      print_number num Outcome.ok w = some (0, w1) ∧
      w1.stream = w.stream ++ ("Number -> ".toList ++ text ++ ['\n']) :=
  ⟨load_int_bounds hn, fmt_d n, _, fmt_d_decimal n, print_number_eq hn Outcome.ok, rfl⟩

/-- Witness for C2: the value -7. -/
theorem print_number_line_witness :
    load_int (worldOfInt (-7)).mem 0 = some (-7) ∧
    ((-2 ^ 31 ≤ (-7 : Int) ∧ (-7 : Int) < 2 ^ 31) ∧
    ∃ text w1, DecimalOf (-7) text ∧
      print_number 0 Outcome.ok (worldOfInt (-7)) = some (0, w1) ∧
      w1.stream = (worldOfInt (-7)).stream ++ ("Number -> ".toList ++ text ++ ['\n'])) :=
  ⟨by decide, print_number_line (worldOfInt (-7)) 0 (-7) (by decide)⟩

/-- C2 as stated fails: when the formatted output call reports an output
error before any character is transmitted, `print_number` on a reference to 42
returns 0 and the text "Number -> 42" with its newline is not emitted. -/
theorem print_number_line_counterexample :
    load_int (worldOfInt 42).mem 0 = some 42 ∧
      print_number 0 (Outcome.err (-1) 0) (worldOfInt 42) =
        some (0, ⟨int_bytes 42, [], [], []⟩) ∧
      ([] : List Char) ≠ (worldOfInt 42).stream ++ "Number -> 42\n".toList := by
  decide

/-- C6: for every integer `n` and every outcome of the formatted output call,
`print_number` returns 0.  The status the call reports (any value at all when
it fails) is dropped: the world after `print_number` is the world after the
call, and the returned value is 0 whatever the status. -/
theorem print_number_returns_zero (w : World) (num : Nat) (n : Int) (o : Outcome)
    (hn : load_int w.mem num = some n) :
    ∃ status w1, printf "Number -> %d\n".toList [n] o w = some (status, w1) ∧
      (∀ st sent, o = Outcome.err st sent → status = st) ∧
      print_number num o w = some (0, w1) := by
  unfold print_number
  rw [hn]
  unfold printf
  simp only [format_number]
  cases o with
  | ok =>
    refine ⟨_, _, rfl, ?_, rfl⟩
    intro st sent h
    cases h
  | err st sent =>
    refine ⟨_, _, rfl, ?_, rfl⟩
    intro st1 sent1 h
    cases h
    rfl

/-- Witness for C6: the output call fails with status -1 on the value 42. -/
theorem print_number_returns_zero_witness :
    ∃ status w1,
      printf "Number -> %d\n".toList [42] (Outcome.err (-1) 3) (worldOfInt 42) =
        some (status, w1) ∧
      (∀ st sent, Outcome.err (-1) 3 = Outcome.err st sent → status = st) ∧
      print_number 0 (Outcome.err (-1) 3) (worldOfInt 42) = some (0, w1) :=
  print_number_returns_zero (worldOfInt 42) 0 42 (Outcome.err (-1) 3) (by decide)

/-! ## Frame -/

/-- C9: both operations leave their inputs unchanged.  For every terminated
string and every result of the write request, after `raw_write` returns the
memory is what it was and still holds the same string at `s`.  For every
readable integer and every outcome of the output call, after `print_number`
returns the memory is what it was and `num` still refers to the same value. -/
theorem inputs_unchanged :
    (∀ (w : World) (s : Nat) (bytes : List Nat) (r : Int), CString w.mem s bytes →
      ∃ ret w1, raw_write s r w = some (ret, w1) ∧ w1.mem = w.mem ∧
        CString w1.mem s bytes) ∧
    (∀ (w : World) (num : Nat) (n : Int) (o : Outcome), load_int w.mem num = some n →
      ∃ ret w1, print_number num o w = some (ret, w1) ∧ w1.mem = w.mem ∧
        load_int w1.mem num = some n) :=
  ⟨fun _ _ _ r hs => ⟨_, _, raw_write_eq hs r, rfl, hs⟩,
   fun _ _ _ o hn => ⟨_, _, print_number_eq hn o, rfl, hn⟩⟩

/-- Witness for C9: `raw_write` on a memory that holds only "hi", and
`print_number` on a memory that holds only the value -7. -/
theorem inputs_unchanged_witness :
    (∃ ret w1, raw_write 0 2 (worldOf "hi") = some (ret, w1) ∧
      w1.mem = (worldOf "hi").mem ∧ CString w1.mem 0 (bytesOf "hi")) ∧
    (∃ ret w1, print_number 0 (Outcome.err (-1) 4) (worldOfInt (-7)) = some (ret, w1) ∧
      w1.mem = (worldOfInt (-7)).mem ∧ load_int w1.mem 0 = some (-7)) :=
  ⟨inputs_unchanged.1 (worldOf "hi") 0 (bytesOf "hi") 2 (by decide),
   inputs_unchanged.2 (worldOfInt (-7)) 0 (-7) (Outcome.err (-1) 4) (by decide)⟩

end Core
